import Mathlib

/-!
Verification development for the hikibiki-data dictionary sync engine.

Shallow embedding of the parts of the source relevant to the checked
claims:

* the store's `bulkUpdateTable` (src/unnamed/part_008, `JpdictStore`),
  including its delete phase, batched put phase (batches of 4000,
  consuming the caller's array via `splice`), version-record write and
  transaction abort-on-error semantics;
* the downloader's plan selection (`download` in src/unnamed/part_004)
  and its line-by-line event generator (`getEvents`), including the
  progress-event threshold logic and the deletion-in-snapshot check;
* the update applier loop (src/src/update.ts), including the
  per-store `inProgressUpdates` overlap guard;
* the query module's `getNames` (src/unnamed/part_009);
* the retry controller's backoff and constraint-retry logic
  (`doUpdate` in the update-with-retry module,
  src/src/cloneable-update-state.ts lines 1284-1445).

JavaScript numbers that only ever hold small non-negative integers are
modelled as `Nat`; the floating-point quantities involved in progress
ratios and retry intervals are modelled as `ℚ` (the concrete inputs used
in witnesses and counterexamples are exactly representable as doubles,
so the double and rational computations agree there).
-/

namespace Hikibiki

/-! ## Common data model -/

/-- The data series of the store (src: `data-series.ts`). -/
inductive DataSeries where
  | kanji
  | radicals
  | names
deriving DecidableEq, Repr

/-- A (major, minor, patch) version triple as compared by
`compareVersions` in the downloader. -/
structure Version where
  major : Nat
  minor : Nat
  patch : Nat
deriving DecidableEq, Repr

/-- A data-version record as stored in the version table
(src: `data-version.ts` / `DataVersionRecord` in the store; the `id`
field is the series key and is modelled by which slot the record sits
in). -/
structure DataVersion where
  major : Nat
  minor : Nat
  patch : Nat
  databaseVersion : Option String
  dateOfCreation : String
  lang : String
deriving DecidableEq, Repr

/-- `compareVersions` from the downloader (src/unnamed/part_004):
lexicographic comparison of (major, minor, patch) returning -1 / 0 / 1. -/
def compareVersions (a b : Version) : Int :=
  if a.major < b.major then -1
  else if a.major > b.major then 1
  else if a.minor < b.minor then -1
  else if a.minor > b.minor then 1
  else if a.patch < b.patch then -1
  else if a.patch > b.patch then 1
  else 0

/-! ## Retry controller (update-with-retry)

Model of the error handler of `doUpdate`
(src/src/cloneable-update-state.ts lines 1345-1444).  The `RetryStatus`
record mirrors the fields of the in-progress-update registry entry that
the error handler reads and writes (`retryIntervalMs`, `retryCount`);
`none` models a JavaScript `undefined` field. -/

/-- 12 hours in milliseconds: the backoff cap
(`12 * 60 * 60 * 1000` in the source). -/
def retryCap : ℚ := 12 * 60 * 60 * 1000

/-- The retry interval (in ms) used for the (n+1)-th consecutive
network-error retry, given the random sample `r` drawn for the first
interval.  Source: `retryIntervalMs = Math.min(retryIntervalMs * 2, 12*60*60*1000)`
when an interval is already set, else `3000 + Math.random() * 3000`. -/
def retryInterval (r : ℚ) : Nat → ℚ
  | 0 => 3000 + r * 3000
  | n + 1 => min (retryInterval r n * 2) retryCap

/-- The classification of an update failure as made by the error handler:
`network` is `e instanceof DownloadError`, `constraint` is
`e.name === 'ConstraintError'`, `other` is everything else. -/
inductive UpdateFailureKind where
  | network
  | constraint
  | other
deriving DecidableEq, Repr

/-- The mutable fields of the in-progress-update registry entry read by
the error handler.  `none` models an `undefined` field. -/
structure RetryStatus where
  retryIntervalMs : Option ℚ
  retryCount : Option Nat
deriving DecidableEq, Repr

/-- The action the error handler takes on a failure. -/
inductive RetryAction where
  | scheduleTimeout (retryIntervalMs : ℚ) (retryCount : Nat)
  | scheduleIdle (retryCount : Nat)
  | surface
deriving DecidableEq, Repr

/-- The condition of the constraint-retry branch:
`!currentRetryStatus || !currentRetryStatus.retryCount || currentRetryStatus.retryCount < 2`.
Note that a `retryCount` of 0 is falsy in JavaScript, so it passes the
`!currentRetryStatus.retryCount` disjunct. -/
def constraintRetriable (status : Option RetryStatus) : Bool :=
  match status with
  | none => true
  | some s =>
      match s.retryCount with
      | none => true
      | some k => k == 0 || k < 2

/-- The error handler of `doUpdate`
(src/src/cloneable-update-state.ts lines 1345-1444).  `status` is the
current in-progress-update registry entry (`none` when the update was
canceled, i.e. `wasCanceled`); `r` is the `Math.random()` sample used
when a first network-retry interval is drawn. -/
def doUpdateErrorStep (r : ℚ) (kind : UpdateFailureKind) (status : Option RetryStatus) :
    RetryAction :=
  match kind, status with
  | .network, some s =>
      -- `isNetworkError && !wasCanceled`
      let interval :=
        match s.retryIntervalMs with
        | some i => min (i * 2) retryCap
        | none => 3000 + r * 3000
      let count :=
        match s.retryCount with
        | some k => k + 1
        | none => 0
      .scheduleTimeout interval count
  | kind, status =>
      if kind = .constraint ∧ constraintRetriable status then
        let count :=
          match status with
          | some s =>
              match s.retryCount with
              | some k => k + 1
              | none => 0
          | none => 0
        .scheduleIdle count
      else
        .surface

/-- Number of idle-scheduler retries consumed by a run of `j` consecutive
constraint failures, starting from registry entry `status`.  Each
scheduled retry re-enters `doUpdate` whose failure is handled with the
registry entry written by the previous step (the constraint branch
stores only `requestIdleCallbackHandle` and `retryCount`, so
`retryIntervalMs` becomes undefined); once a failure is surfaced the
registry entry is deleted and no further retry runs. -/
def constraintRetriesAux : Nat → Option RetryStatus → Nat
  | 0, _ => 0
  | _ + 1, none => 0
  | j + 1, some s =>
      match doUpdateErrorStep 0 .constraint (some s) with
      | .scheduleIdle c => 1 + constraintRetriesAux j (some ⟨none, some c⟩)
      | _ => 0

/-- Idle-scheduler retries consumed by `j` consecutive constraint
failures of a fresh update (the registry entry starts as the empty
record written at the start of `doUpdate`). -/
def constraintRetries (j : Nat) : Nat :=
  constraintRetriesAux j (some ⟨none, none⟩)

/-! ## Store: `bulkUpdateTable` (src/unnamed/part_008, lines 390-511)

The store is modelled per series: `table` is the series' object store as
a partial map from keys to records, and `version` is the series' record
in the version table (`none` when absent).  `bulkUpdateTable` opens one
IndexedDB transaction spanning both; on any error it aborts the
transaction (the catch blocks call `tx.abort()`), so the committed state
is returned unchanged, and re-throws; on success `tx.done` commits the
draft.  Failures of the individual IndexedDB requests are injected
through a `FailPoint` naming the first operation that throws. -/

/-- The committed contents of one series: its object store plus its
record in the version table. -/
structure StoreTables (K : Type) (V : Type) where
  table : K → Option V
  version : Option DataVersion

/-- `BATCH_SIZE` from `bulkUpdateTable`. -/
def BATCH_SIZE : Nat := 4000

/-- Which operation inside the `bulkUpdateTable` transaction throws
first (if any).  `duringDelete i` is the i-th `targetTable.delete`,
`duringPutBatch i` rejects the `Promise.all` of the i-th batch of puts,
`duringCommit` rejects the final `await tx.done`. -/
inductive FailPoint where
  | noFail
  | duringClear
  | duringDelete (i : Nat)
  | duringPutBatch (i : Nat)
  | duringVersionWrite
  | duringCommit
deriving DecidableEq, Repr

/-- The observable outcome of a `bulkUpdateTable` call: the committed
state after the call, what is left of the caller's `put` array (the
source consumes it with `put.splice(0, BATCH_SIZE)`), and whether the
call threw. -/
structure BulkResult (K : Type) (V : Type) where
  store : StoreTables K V
  putRemaining : List V
  failed : Bool

variable {K V : Type}

/-- Write a batch of records into the draft table; `keyOf` is the
record's primary key (the store uses in-record key paths: `c` for
kanji, `id` for radicals and names). -/
def applyPuts [DecidableEq K] (keyOf : V → K) (tbl : K → Option V) (batch : List V) :
    K → Option V :=
  batch.foldl (fun t rec => Function.update t (keyOf rec) (some rec)) tbl

/-- The delete loop of `bulkUpdateTable`: each listed key is deleted and
awaited in turn; `none` means the delete at the fail point threw. -/
def deleteLoop [DecidableEq K] (fp : FailPoint) (tbl : K → Option V) :
    List K → Nat → Option (K → Option V)
  | [], _ => some tbl
  | id :: rest, i =>
      if fp = .duringDelete i then none
      else deleteLoop fp (Function.update tbl id none) rest (i + 1)

/-- The put loop of `bulkUpdateTable`: while the `put` array is
non-empty, splice off the next `BATCH_SIZE` records (this mutates the
caller's array), issue the puts without awaiting them individually, and
await the whole batch.  Returns the draft table, what remains of the
caller's array, and whether a batch failed. -/
def putLoop [DecidableEq K] (keyOf : V → K) (fp : FailPoint) (tbl : K → Option V) :
    List V → Nat → ((K → Option V) × List V × Bool)
  | [], _ => (tbl, [], false)
  | rec :: rest₀, i =>
      let batch := (rec :: rest₀).take BATCH_SIZE
      let rest := (rec :: rest₀).drop BATCH_SIZE
      if fp = .duringPutBatch i then (tbl, rest, true)
      else putLoop keyOf fp (applyPuts keyOf tbl batch) rest (i + 1)
  termination_by l _ => l.length
  decreasing_by
    simp only [List.length_drop, List.length_cons, BATCH_SIZE]
    omega

/-- `JpdictStore.bulkUpdateTable` (src/unnamed/part_008, lines 390-511).
`drop = none` models `drop: '*'` (clear the table); `version = none`
models `version: null` (delete the series' version record).  On any
error the transaction is aborted, so the committed `store` in the
result equals the input state; on success the draft (including the
version write) is committed atomically. -/
def bulkUpdateTable [DecidableEq K] (keyOf : V → K) (fp : FailPoint)
    (st : StoreTables K V) (put : List V) (drop : Option (List K))
    (version : Option DataVersion) : BulkResult K V :=
  let afterDelete : Option (K → Option V) :=
    match drop with
    | none => if fp = .duringClear then none else some (fun _ => none)
    | some ids => deleteLoop fp st.table ids 0
  match afterDelete with
  | none => ⟨st, put, true⟩
  | some tbl₁ =>
      match putLoop keyOf fp tbl₁ put 0 with
      | (_, rest, true) => ⟨st, rest, true⟩
      | (tbl₂, _, false) =>
          if fp = .duringVersionWrite then ⟨st, [], true⟩
          else if fp = .duringCommit then ⟨st, [], true⟩
          else ⟨⟨tbl₂, version⟩, [], false⟩

/-- `JpdictStore.getDataVersion` (src/unnamed/part_008, lines 378-388):
reads the series' record from the committed version table. -/
def getDataVersion (st : StoreTables K V) : Option DataVersion :=
  st.version

/-! Spec-side table semantics, written from the claim's words for the
refinement statement of C2: a patch on top of base `B` with deletions
`D` and records `R` yields `(B \ D) ∪ R` where `R` wins on key clashes
(later records in `R` replace earlier ones); a full snapshot yields
exactly `R`. -/

/-- The last record in `R` whose key is `k` (the record that "replaces
any records with the same key"). -/
def lastWithKey [DecidableEq K] (keyOf : V → K) (R : List V) (k : K) : Option V :=
  R.reverse.find? (fun rec => keyOf rec = k)

/-- The claim's `(B \ D) ∪ R`: keys in `D` deleted, then records in `R`
put, replacing any records with the same key. -/
def specPatchTable [DecidableEq K] (keyOf : V → K) (B : K → Option V)
    (D : List K) (R : List V) : K → Option V :=
  fun k =>
    match lastWithKey keyOf R k with
    | some rec => some rec
    | none => if k ∈ D then none else B k

/-- The claim's table for a full snapshot: exactly `R`. -/
def specSnapshotTable [DecidableEq K] (keyOf : V → K) (R : List V) : K → Option V :=
  lastWithKey keyOf R

/-! ## Downloader: plan selection (`download`, src/unnamed/part_004 lines 435-583)

`download` fetches the version manifest, rejects a local version that is
newer than upstream (`DatabaseTooOld`), then either streams the full
snapshot followed by every later patch, or (when the current version is
recent enough) only the missing patches.  The model computes the list of
files fetched, in order. -/

/-- The typed download error codes (`DownloadErrorCode` in
src/unnamed/part_004); only the codes exercised by the claims are
listed. -/
inductive DownloadErrorCode where
  | databaseFileHeaderMissing
  | databaseFileHeaderDuplicate
  | databaseFileVersionMismatch
  | databaseFileInvalidRecord
  | databaseFileDeletionInSnapshot
  | databaseTooOld
deriving DecidableEq, Repr

/-- The kind of data file fetched: a full snapshot or an incremental
patch. -/
inductive FileType where
  | full
  | patch
deriving DecidableEq, Repr

/-- The version-manifest entry for the requested series and major
version (`VersionInfo` in src/unnamed/part_004); `dateOfCreation` and
`databaseVersion` do not influence the plan and are omitted. -/
structure VersionInfo where
  major : Nat
  minor : Nat
  patch : Nat
  snapshot : Nat
deriving DecidableEq, Repr

/-- The incremental patch files fetched by the `while (currentPatch < versionInfo.patch)`
loop, starting from `startPatch`: patch numbers `startPatch+1`, …,
`versionInfo.patch`, in increasing order. -/
def patchFiles (info : VersionInfo) (startPatch : Nat) : List (FileType × Version) :=
  (List.range' (startPatch + 1) (info.patch - startPatch)).map
    (fun p => (FileType.patch, ⟨info.major, info.minor, p⟩))

/-- The file-fetch plan of `download` (src/unnamed/part_004, lines
478-574): fail with `DatabaseTooOld` when the current version is newer
than upstream; fetch the full snapshot first unless a current version
exists whose (major, minor, 0) is not older than upstream's; then fetch
the consecutive patches. -/
def downloadPlan (info : VersionInfo) (currentVersion : Option Version) :
    Except DownloadErrorCode (List (FileType × Version)) :=
  match currentVersion with
  | none =>
      .ok ((FileType.full, ⟨info.major, info.minor, info.snapshot⟩) ::
        patchFiles info info.snapshot)
  | some cur =>
      if compareVersions cur ⟨info.major, info.minor, info.patch⟩ > 0 then
        .error .databaseTooOld
      else if compareVersions cur ⟨info.major, info.minor, 0⟩ < 0 then
        .ok ((FileType.full, ⟨info.major, info.minor, info.snapshot⟩) ::
          patchFiles info info.snapshot)
      else
        .ok (patchFiles info cur.patch)

/-! ## Downloader: event generation (`getEvents`, src/unnamed/part_004 lines 771-910)

`getEvents` walks the line-delimited JSON body of one data file.  Each
parsed line is classified by `isHeaderLine` and the series-provided
`isEntryLine` / `isDeletionLine` predicates (in that priority order);
`LjsonLine` is the outcome of that classification, with `invalid` for a
line that none of the predicates accepts.  The generator yields typed
events and throws a typed `DownloadError` on protocol violations, which
ends the stream. -/

/-- A classified line of a data file.  `E` and `D` are the
series-specific entry and deletion line payloads. -/
inductive LjsonLine (E : Type) (D : Type) where
  | header (version : Version) (records : Nat)
  | entry (e : E)
  | deletion (d : D)
  | invalid
deriving DecidableEq, Repr

/-- A download event (`DownloadEvent` in the downloader, plus the
`versionend` file-boundary event consumed by the applier in
src/src/update.ts).  `partialFile` is the `partial` flag of the
`version` event (true for patch files); the bookkeeping fields
(`databaseVersion`, `dateOfCreation`) do not influence any claim and
are omitted. -/
inductive DownloadEventM (E : Type) (D : Type) where
  | version (v : Version) (partialFile : Bool)
  | entry (e : E)
  | deletion (d : D)
  | progress (loaded : Nat) (total : Nat)
  | versionend
deriving DecidableEq, Repr

/-- The generator state threaded through the line loop of `getEvents`:
`headerRead`, `lastProgressPercent`, `recordsRead`, `totalRecords`. -/
structure GetEventsState where
  headerRead : Bool
  lastProgressPercent : ℚ
  recordsRead : Nat
  totalRecords : Nat
deriving DecidableEq, Repr

/-- The progress check run after each processed line:
dispatch a new progress event iff `totalRecords` is non-zero (truthy)
and `recordsRead / totalRecords - lastProgressPercent > maxProgressResolution`
(strictly).  Returns the updated state and whether an event fired. -/
def progressStep (maxRes : ℚ) (s : GetEventsState) : GetEventsState × Bool :=
  if s.totalRecords ≠ 0 ∧
      (s.recordsRead : ℚ) / (s.totalRecords : ℚ) - s.lastProgressPercent > maxRes then
    ({ s with lastProgressPercent := (s.recordsRead : ℚ) / (s.totalRecords : ℚ) }, true)
  else
    (s, false)

/-- The line loop of `getEvents` (src/unnamed/part_004, lines 828-909).
Returns the events yielded before the loop ends and the error that
terminated it, if any.  `fileVersion` is the (major, minor, patch)
embedded in the file's URL; the header's version must equal it. -/
def getEventsLoop (fileType : FileType) (fileVersion : Version) (maxRes : ℚ) :
    GetEventsState → List (LjsonLine E D) →
    List (DownloadEventM E D) × Option DownloadErrorCode
  | _, [] => ([], none)
  | s, line :: rest =>
      match line with
      | .header v records =>
          if s.headerRead then ([], some .databaseFileHeaderDuplicate)
          else if compareVersions v fileVersion ≠ 0 then
            ([], some .databaseFileVersionMismatch)
          else
            let s₁ : GetEventsState :=
              { s with headerRead := true, totalRecords := records }
            let stepped := progressStep maxRes s₁
            let tail := getEventsLoop fileType fileVersion maxRes stepped.1 rest
            (DownloadEventM.version v (fileType = .patch) ::
              ((if stepped.2 then
                  [DownloadEventM.progress stepped.1.recordsRead stepped.1.totalRecords]
                else []) ++ tail.1),
             tail.2)
      | .entry e =>
          if !s.headerRead then ([], some .databaseFileHeaderMissing)
          else
            let s₁ : GetEventsState := { s with recordsRead := s.recordsRead + 1 }
            let stepped := progressStep maxRes s₁
            let tail := getEventsLoop fileType fileVersion maxRes stepped.1 rest
            (DownloadEventM.entry e ::
              ((if stepped.2 then
                  [DownloadEventM.progress stepped.1.recordsRead stepped.1.totalRecords]
                else []) ++ tail.1),
             tail.2)
      | .deletion d =>
          if !s.headerRead then ([], some .databaseFileHeaderMissing)
          else if fileType = .full then ([], some .databaseFileDeletionInSnapshot)
          else
            let s₁ : GetEventsState := { s with recordsRead := s.recordsRead + 1 }
            let stepped := progressStep maxRes s₁
            let tail := getEventsLoop fileType fileVersion maxRes stepped.1 rest
            (DownloadEventM.deletion d ::
              ((if stepped.2 then
                  [DownloadEventM.progress stepped.1.recordsRead stepped.1.totalRecords]
                else []) ++ tail.1),
             tail.2)
      | .invalid =>
          if !s.headerRead then ([], some .databaseFileHeaderMissing)
          else ([], some .databaseFileInvalidRecord)

/-- `getEvents` on a whole file: run the line loop from the initial
state (`headerRead = false`, `lastProgressPercent = 0`,
`recordsRead = 0`, `totalRecords = 0`). -/
def getEvents (fileType : FileType) (fileVersion : Version) (maxRes : ℚ)
    (lines : List (LjsonLine E D)) :
    List (DownloadEventM E D) × Option DownloadErrorCode :=
  getEventsLoop fileType fileVersion maxRes ⟨false, 0, 0, 0⟩ lines

/-- The `loaded` fields of the progress events in an event list, in
order. -/
def progressLoadedValues (evs : List (DownloadEventM E D)) : List Nat :=
  evs.filterMap (fun ev =>
    match ev with
    | .progress loaded _ => some loaded
    | _ => none)

/-- Whether an event is a deletion event (checked by claim C5). -/
def isDeletionEvent (ev : DownloadEventM E D) : Bool :=
  match ev with
  | .deletion _ => true
  | _ => false

/-- The progress emissions produced while reading `n` consecutive
records, starting from state `s`: for each record, `recordsRead` is
incremented and then the progress check runs; the list collects the
`recordsRead` values at which an event fired.  This is the record loop
of `getEvents` restricted to its progress bookkeeping. -/
def progressTrace (maxRes : ℚ) (s : GetEventsState) : Nat → List Nat
  | 0 => []
  | n + 1 =>
      let s₁ : GetEventsState := { s with recordsRead := s.recordsRead + 1 }
      let stepped := progressStep maxRes s₁
      (if stepped.2 then [s₁.recordsRead] else []) ++ progressTrace maxRes stepped.1 n

/-- The records (counted from 1) at which a progress event fires while
streaming a file whose header declared `total` records, when `n`
records are read. -/
def fileProgressPoints (maxRes : ℚ) (total : Nat) (n : Nat) : List Nat :=
  progressTrace maxRes ⟨true, 0, 0, total⟩ n

/-! ## Update applier (src/src/update.ts)

`update` takes a reader on the download stream and folds its events:
entry records are transformed (`toRecord`) and buffered, deletion ids
(`getId`) are buffered, and at each `versionend` the buffers are flushed
through `Store.bulkUpdateTable` with `drop = '*'` for a full file and
`drop = recordsToDelete` for a patch.  Reading may end normally (`done`)
or with the stream's error, which the applier re-throws. -/

/-- How the download stream ends for the applier: a normal end of
stream, or a read that throws the downloader's error. -/
inductive StreamEnd where
  | done
  | errored (code : DownloadErrorCode)
deriving DecidableEq, Repr

/-- The errors the applier can surface: the overlap guard, an unfinished
version (a `version` event while one is open, or end of stream with one
open), a store error thrown by `bulkUpdateTable`, or the download
stream's own error re-thrown from `reader.read()`. -/
inductive UpdateErr where
  | overlapping
  | unfinishedVersion
  | storeError
  | download (code : DownloadErrorCode)
deriving DecidableEq, Repr

/-- The version record the applier writes for a file whose `version`
event carried `v` (the `databaseVersion` / `dateOfCreation` bookkeeping
fields of the event are not modelled; `lang` is the update's language
option). -/
def dataVersionOfHeader (v : Version) (lang : String) : DataVersion :=
  ⟨v.major, v.minor, v.patch, none, "", lang⟩

/-- The event loop of `update` (src/src/update.ts lines 184-267) plus
`finishCurrentVersion` (lines 145-182).  State: the committed store,
the `recordsToPut` / `recordsToDelete` buffers, and the open version
slot with its `partial` flag.  Returns the error surfaced (if any) and
the committed store when the loop ends.  On a `deletion` event the
source merely `console.assert`s the partial flag (non-fatal) and
buffers the id.  `fp` injects a store failure into the bulk updates. -/
def updateLoop [DecidableEq K] (keyOf : V → K) (toRecord : E → V) (getId : D → K)
    (lang : String) (fp : FailPoint) (st : StoreTables K V)
    (recordsToPut : List V) (recordsToDelete : List K)
    (currentVersion : Option (Version × Bool)) :
    List (DownloadEventM E D) → StreamEnd → Option UpdateErr × StoreTables K V
  | [], .done =>
      if currentVersion.isSome then (some .unfinishedVersion, st) else (none, st)
  | [], .errored code => (some (.download code), st)
  | ev :: rest, e =>
      match ev with
      | .version v partialFile =>
          if currentVersion.isSome then (some .unfinishedVersion, st)
          else
            updateLoop keyOf toRecord getId lang fp st recordsToPut recordsToDelete
              (some (v, partialFile)) rest e
      | .versionend =>
          match currentVersion with
          | none =>
              updateLoop keyOf toRecord getId lang fp st recordsToPut recordsToDelete
                none rest e
          | some (v, partialFile) =>
              let res := bulkUpdateTable keyOf fp st recordsToPut
                (if partialFile then some recordsToDelete else none)
                (some (dataVersionOfHeader v lang))
              if res.failed then (some .storeError, st)
              else updateLoop keyOf toRecord getId lang fp res.store [] [] none rest e
      | .entry ev₁ =>
          updateLoop keyOf toRecord getId lang fp st
            (recordsToPut ++ [toRecord ev₁]) recordsToDelete currentVersion rest e
      | .deletion dv =>
          updateLoop keyOf toRecord getId lang fp st
            recordsToPut (recordsToDelete ++ [getId dv]) currentVersion rest e
      | .progress _ _ =>
          updateLoop keyOf toRecord getId lang fp st
            recordsToPut recordsToDelete currentVersion rest e

/-! ## Update overlap guard (src/src/update.ts lines 61-64, 131-137)

`inProgressUpdates` is a `Map<JpdictStore, reader>`: it is keyed by the
store alone.  `update` throws `'Overlapping calls to update'` when the
store already has an entry, regardless of which series either update is
for; every termination path (done, error, cancellation) deletes the
store's entry.  Stores are identified by `Nat` here. -/

/-- Start of `update`: fail if the store is already registered, else
register it.  The `series` argument is the series being updated; the
guard does not consult it. -/
def startUpdate (inProgress : List Nat) (store : Nat) (series : DataSeries) :
    Except UpdateErr (List Nat) :=
  if store ∈ inProgress then .error .overlapping else .ok (store :: inProgress)

/-- Every termination path of `update` (normal end, error, or
`cancelUpdate`) removes the store's registry entry. -/
def finishUpdate (inProgress : List Nat) (store : Nat) : List Nat :=
  inProgress.erase store

/-! ## Query module: `getNames` (src/unnamed/part_009, lines 675-699)

The names table is modelled as the list of its records in primary-key
(`id`) order, which is the order in which an `IDBKeyRange.only` cursor
walks a multi-entry index for a fixed key.  Each `cursor.value` is a
freshly deserialized object, so the two index scans can never produce
reference-equal values; the JavaScript `Set<NameRecord>` therefore
keeps every inserted value.  A scan's values are modelled as
`ObjRef`s — the record paired with (scan number, cursor position) as
its object identity. -/

/-- A record of the names table (`NameRecord` = `NameEntryLine` plus the
derived `h` field in the versioned store; the query module's getNames
reads only `k` and `r`).  `k` is optional in the source
(`k?: Array<string>`); an absent `k` produces no index entries. -/
structure NameRecord where
  id : Nat
  k : Option (List String)
  r : List String
  h : List String
deriving DecidableEq, Repr

/-- Scan a multi-entry string index with `IDBKeyRange.only search`:
the records whose indexed array contains `search`, in primary-key
order. -/
def scanNamesIndex (proj : NameRecord → List String) (search : String)
    (table : List NameRecord) : List NameRecord :=
  table.filter (fun rec => search ∈ proj rec)

/-- A deserialized cursor value: the pair (scan number, cursor
position) is its object identity. -/
def ObjRef : Type := (Nat × Nat) × NameRecord

instance : DecidableEq ObjRef := by
  unfold ObjRef
  infer_instance

/-- `Set.prototype.add` keyed by object identity, enumerated in
insertion order. -/
def setAdd (s : List ObjRef) (x : ObjRef) : List ObjRef :=
  if x ∈ s then s else s ++ [x]

/-- Tag each value of scan number `scanId` with its object identity. -/
def tagScan (scanId : Nat) (recs : List NameRecord) : List ObjRef :=
  recs.enum.map (fun p => ((scanId, p.1), p.2))

/-- `getNames` (src/unnamed/part_009, lines 675-699): iterate the `k`
(kanji) index with the exact search term, then the `r` (reading) index,
adding each cursor value to a `Set`, and return the set's contents in
insertion order. -/
def getNames (search : String) (table : List NameRecord) : List NameRecord :=
  let kanjiMatches := tagScan 0 (scanNamesIndex (fun rec => rec.k.getD []) search table)
  let readingMatches := tagScan 1 (scanNamesIndex (fun rec => rec.r) search table)
  (((kanjiMatches ++ readingMatches).foldl setAdd []).map (fun x => x.2))

/-- Whether an event is the applier's `versionend` file-boundary
event. -/
def isVersionendEvent (ev : DownloadEventM E D) : Bool :=
  match ev with
  | .versionend => true
  | _ => false

/-- Whether an event is an entry or a progress event (the only events a
full file emits after its `version` event). -/
def isEntryOrProgressEvent (ev : DownloadEventM E D) : Bool :=
  match ev with
  | .entry _ => true
  | .progress _ _ => true
  | _ => false

/-! ## Helper lemmas -/

theorem retryInterval_closed (r : ℚ) (h0 : 0 ≤ r) (h1 : r < 1) (n : Nat) :
    retryInterval r n = min ((3000 + r * 3000) * 2 ^ n) retryCap := by
  induction n with
  | zero =>
      have hle : 3000 + r * 3000 ≤ retryCap := by
        unfold retryCap
        nlinarith
      simp [retryInterval, pow_zero, mul_one, min_eq_left hle]
  | succ n ih =>
      have ha : (0 : ℚ) ≤ (3000 + r * 3000) * 2 ^ n := by positivity
      have hc : (0 : ℚ) ≤ retryCap := by unfold retryCap; norm_num
      rw [retryInterval, ih]
      rcases le_total ((3000 + r * 3000) * 2 ^ n) retryCap with hcase | hcase
      · rw [min_eq_left hcase]
        have : (3000 + r * 3000) * 2 ^ n * 2 = (3000 + r * 3000) * 2 ^ (n + 1) := by ring
        rw [this]
      · rw [min_eq_right hcase]
        have h2 : retryCap ≤ retryCap * 2 := by nlinarith
        rw [min_eq_right h2]
        have hsplit : (3000 + r * 3000) * 2 ^ (n + 1)
            = (3000 + r * 3000) * 2 ^ n * 2 := by ring
        have h3 : retryCap ≤ (3000 + r * 3000) * 2 ^ (n + 1) := by
          rw [hsplit]
          linarith
        rw [min_eq_right h3]

theorem deleteLoop_noTrigger [DecidableEq K] (fp : FailPoint)
    (hfp : ∀ i, fp ≠ .duringDelete i) (tbl : K → Option V) (ids : List K) (i : Nat) :
    deleteLoop (V := V) fp tbl ids i
      = some (ids.foldl (fun t id => Function.update t id none) tbl) := by
  induction ids generalizing tbl i with
  | nil => rfl
  | cons a l ih =>
      rw [deleteLoop, if_neg (hfp i), ih]
      rfl

theorem deleteLoop_triggered [DecidableEq K] (tbl : K → Option V) (ids : List K)
    (i j : Nat) (h : j < ids.length) :
    deleteLoop (V := V) (.duringDelete (i + j)) tbl ids i = none := by
  induction ids generalizing tbl i j with
  | nil => simp at h
  | cons a l ih =>
      match j with
      | 0 => simp [deleteLoop]
      | j + 1 =>
          have hne : FailPoint.duringDelete (i + (j + 1)) ≠ .duringDelete i := by
            simp only [ne_eq, FailPoint.duringDelete.injEq]
            omega
          rw [deleteLoop, if_neg hne]
          have harg : i + (j + 1) = (i + 1) + j := by omega
          rw [harg]
          have hj : j < l.length := by
            simp only [List.length_cons] at h
            omega
          exact ih _ _ _ hj

theorem applyPuts_append [DecidableEq K] (keyOf : V → K) (tbl : K → Option V)
    (l₁ l₂ : List V) :
    applyPuts keyOf tbl (l₁ ++ l₂) = applyPuts keyOf (applyPuts keyOf tbl l₁) l₂ := by
  unfold applyPuts
  rw [List.foldl_append]

theorem putLoop_noTrigger [DecidableEq K] (keyOf : V → K) (fp : FailPoint)
    (hfp : ∀ i, fp ≠ .duringPutBatch i) (tbl : K → Option V) (put : List V) (i : Nat) :
    putLoop keyOf fp tbl put i = (applyPuts keyOf tbl put, [], false) := by
  suffices h : ∀ n (tbl : K → Option V) (put : List V) (i : Nat), put.length = n →
      putLoop keyOf fp tbl put i = (applyPuts keyOf tbl put, [], false) from
    h put.length tbl put i rfl
  intro n
  induction n using Nat.strong_induction_on with
  | _ n ih =>
      intro tbl put i hn
      match put with
      | [] => simp [putLoop, applyPuts]
      | rec :: rest₀ =>
          rw [putLoop, if_neg (hfp i)]
          have hlt : ((rec :: rest₀).drop BATCH_SIZE).length < n := by
            rw [← hn]
            simp only [List.length_drop, List.length_cons, BATCH_SIZE]
            omega
          rw [ih _ hlt _ _ _ rfl, ← applyPuts_append, List.take_append_drop]

theorem putLoop_triggered [DecidableEq K] (keyOf : V → K) (tbl : K → Option V)
    (put : List V) (i j : Nat) (h : j * BATCH_SIZE < put.length) :
    putLoop keyOf (.duringPutBatch (i + j)) tbl put i
      = (applyPuts keyOf tbl (put.take (j * BATCH_SIZE)),
         put.drop ((j + 1) * BATCH_SIZE), true) := by
  suffices hgen : ∀ n (tbl : K → Option V) (put : List V) (i j : Nat),
      put.length = n → j * BATCH_SIZE < put.length →
      putLoop keyOf (.duringPutBatch (i + j)) tbl put i
        = (applyPuts keyOf tbl (put.take (j * BATCH_SIZE)),
           put.drop ((j + 1) * BATCH_SIZE), true) from
    hgen put.length tbl put i j rfl h
  intro n
  induction n using Nat.strong_induction_on with
  | _ n ih =>
      intro tbl put i j hn htrig
      match put with
      | [] => simp at htrig
      | rec :: rest₀ =>
          match j with
          | 0 =>
              rw [putLoop]
              simp [applyPuts]
          | j + 1 =>
              have hne : FailPoint.duringPutBatch (i + (j + 1)) ≠ .duringPutBatch i := by
                simp only [ne_eq, FailPoint.duringPutBatch.injEq]
                omega
              rw [putLoop, if_neg hne]
              have hlt : ((rec :: rest₀).drop BATCH_SIZE).length < n := by
                rw [← hn]
                simp only [List.length_drop, List.length_cons, BATCH_SIZE]
                omega
              have htrig₁ : j * BATCH_SIZE < ((rec :: rest₀).drop BATCH_SIZE).length := by
                simp only [List.length_drop, List.length_cons]
                simp only [List.length_cons] at htrig
                have hB : BATCH_SIZE + j * BATCH_SIZE = (j + 1) * BATCH_SIZE := by ring
                omega
              have harg : i + (j + 1) = (i + 1) + j := by omega
              rw [harg, ih _ hlt _ _ _ _ rfl htrig₁]
              rw [← applyPuts_append, ← List.take_add, List.drop_drop]
              have h₁ : BATCH_SIZE + j * BATCH_SIZE = (j + 1) * BATCH_SIZE := by ring
              have h₂ : BATCH_SIZE + (j + 1) * BATCH_SIZE = (j + 1 + 1) * BATCH_SIZE := by
                ring
              rw [h₁, h₂]

theorem applyPuts_apply [DecidableEq K] (keyOf : V → K) (tbl : K → Option V)
    (R : List V) (k : K) :
    applyPuts keyOf tbl R k = (lastWithKey keyOf R k).or (tbl k) := by
  induction R generalizing tbl with
  | nil => simp [applyPuts, lastWithKey]
  | cons r R ih =>
      show applyPuts keyOf (Function.update tbl (keyOf r) (some r)) R k
        = (lastWithKey keyOf (r :: R) k).or (tbl k)
      rw [ih]
      unfold lastWithKey
      rw [List.reverse_cons, List.find?_append]
      rcases hfind : List.find? (fun rec => decide (keyOf rec = k)) R.reverse with _ | rec
      · simp only [Option.none_or]
        rw [Function.update_apply]
        by_cases hk : keyOf r = k
        · rw [List.find?_cons_of_pos _ (by simp [hk]), if_pos hk.symm]
          rfl
        · rw [List.find?_cons_of_neg _ (by simp [hk]), if_neg (fun heq => hk heq.symm),
            List.find?_nil, Option.none_or]
      · rfl

theorem deleteFold_apply [DecidableEq K] (tbl : K → Option V) (ids : List K) (k : K) :
    (ids.foldl (fun t id => Function.update t id none) tbl) k
      = if k ∈ ids then none else tbl k := by
  induction ids generalizing tbl with
  | nil => simp
  | cons a l ih =>
      show (l.foldl (fun t id => Function.update t id none)
        (Function.update tbl a none)) k = _
      rw [ih]
      by_cases hl : k ∈ l
      · simp [hl]
      · by_cases hk : k = a
        · subst hk
          simp [hl, Function.update_apply]
        · simp [hl, hk, Function.update_apply, List.mem_cons]

/-! ## Claim theorems -/

/-- Claim C8 (confirmed): for every sequence of consecutive
network-class update failures, the delay before retry attempt n+1
satisfies `min (3000·2^n) 12h ≤ delay ≤ min (6000·2^n) 12h`: the first
delay is randomized in [3s, 6s], each subsequent delay doubles the
previous one, and no delay exceeds 12 hours. -/
theorem c8_retry_backoff_bounds (r : ℚ) (n : Nat) (h0 : 0 ≤ r) (h1 : r < 1) :
    min (3000 * 2 ^ n) retryCap ≤ retryInterval r n ∧
    retryInterval r n ≤ min (6000 * 2 ^ n) retryCap := by
  rw [retryInterval_closed r h0 h1 n]
  constructor
  · apply min_le_min _ le_rfl
    have : (0 : ℚ) ≤ 2 ^ n := by positivity
    nlinarith
  · apply min_le_min _ le_rfl
    have : (0 : ℚ) ≤ 2 ^ n := by positivity
    nlinarith

/-- Witness for C8: the bounds hold concretely for the random sample
r = 1/2 at the second attempt (n = 1). -/
theorem c8_retry_backoff_bounds_witness :
    (0 : ℚ) ≤ 1 / 2 ∧ (1 / 2 : ℚ) < 1 ∧
    (min (3000 * 2 ^ 1) retryCap ≤ retryInterval (1 / 2) 1 ∧
      retryInterval (1 / 2) 1 ≤ min (6000 * 2 ^ 1) retryCap) :=
  ⟨by norm_num, by norm_num,
    c8_retry_backoff_bounds (1 / 2) 1 (by norm_num) (by norm_num)⟩

/-- Counterexample to claim C9: the third consecutive constraint
failure of a fresh update is still retried (three idle-scheduler
retries are consumed in total), whereas the claim says that after 2
retries a further constraint failure is not retried. -/
theorem c9_counterexample :
    constraintRetries 3 = 3 ∧ ¬ constraintRetries 3 ≤ 2 := by
  constructor
  · rfl
  · decide

/-- Claim C9 (corrected): a constraint failure is retried via the
idle-time scheduler while the stored `retryCount` is unset, 0 or 1
(`!retryCount || retryCount < 2` with a 0-based count), so a run of j
consecutive constraint failures of one update consumes `min j 3`
idle-scheduler retries: the first three failures are retried and the
fourth is surfaced. -/
theorem c9_constraint_retry_count (j : Nat) :
    constraintRetries j = min j 3 := by
  match j with
  | 0 => rfl
  | 1 => rfl
  | 2 => rfl
  | 3 => rfl
  | j + 4 =>
      have h : constraintRetries (j + 4) = 3 := rfl
      rw [h]
      omega

/-- Counterexample to claim C4: starting an update for the names series
of a store while an update for the kanji series of the same store is in
flight fails with the overlapping-update error (the registry is keyed
by store alone), whereas the claim says an update for a different
series of the same store may proceed. -/
theorem c4_counterexample :
    startUpdate [] 0 .kanji = .ok [0] ∧
    startUpdate [0] 0 .names = .error .overlapping := by
  constructor
  · rfl
  · rfl

/-- Claim C4 (corrected): at most one in-flight update exists per store,
regardless of series: starting a second update invocation for the same
store while one is active fails with the overlapping-update error
whether the series is the same or different, and after any update
invocation terminates (success, error, or cancellation) the store's
registry entry is removed so a subsequent update can start. -/
theorem c4_per_store_guard (reg : List Nat) (store : Nat)
    (s₁ s₂ s₃ : DataSeries) (h : store ∉ reg) :
    startUpdate reg store s₁ = .ok (store :: reg) ∧
    startUpdate (store :: reg) store s₂ = .error .overlapping ∧
    startUpdate (finishUpdate (store :: reg) store) store s₃ = .ok (store :: reg) := by
  refine ⟨?_, ?_, ?_⟩
  · simp [startUpdate, h]
  · simp [startUpdate]
  · simp [startUpdate, finishUpdate, List.erase_cons_head, h]

/-- Witness for C4 (amended): concrete registry and store. -/
theorem c4_per_store_guard_witness :
    (0 : Nat) ∉ ([] : List Nat) ∧
    (startUpdate [] 0 .radicals = .ok [0] ∧
      startUpdate [0] 0 .radicals = .error .overlapping ∧
      startUpdate (finishUpdate [0] 0) 0 .radicals = .ok [0]) :=
  ⟨by decide, c4_per_store_guard [] 0 .radicals .radicals .radicals (by decide)⟩

/-- Claim C1 (confirmed): every call to `bulkUpdateTable` that fails
with an error — during the delete phase, the put phase, the
version-record write, or the commit — leaves the committed state
unchanged: `getDataVersion` returns the same value as before the call,
and the series table is also unchanged (the whole transaction is
aborted). -/
theorem c1_failed_bulk_preserves_state [DecidableEq K] (keyOf : V → K)
    (fp : FailPoint) (st : StoreTables K V) (put : List V)
    (drop : Option (List K)) (version : Option DataVersion)
    (h : (bulkUpdateTable keyOf fp st put drop version).failed = true) :
    getDataVersion (bulkUpdateTable keyOf fp st put drop version).store
      = getDataVersion st ∧
    (bulkUpdateTable keyOf fp st put drop version).store = st := by
  rcases hres : bulkUpdateTable keyOf fp st put drop version with ⟨store, rem, failed⟩
  rw [hres] at h
  simp only at h
  subst h
  simp only [bulkUpdateTable] at hres
  split at hres
  · injection hres with h1 h2 h3
    subst h1
    exact ⟨rfl, rfl⟩
  · split at hres
    · injection hres with h1 h2 h3
      subst h1
      exact ⟨rfl, rfl⟩
    · split at hres
      · injection hres with h1 h2 h3
        subst h1
        exact ⟨rfl, rfl⟩
      · split at hres
        · injection hres with h1 h2 h3
          subst h1
          exact ⟨rfl, rfl⟩
        · injection hres with h1 h2 h3
          simp at h3

/-- Witness for C1: a bulk update that fails while clearing the table
of a full update leaves a concrete store unchanged. -/
theorem c1_failed_bulk_preserves_state_witness :
    (bulkUpdateTable (K := Nat) (V := Nat) id .duringClear
        ⟨fun _ => none, none⟩ [5] none none).failed = true ∧
    (getDataVersion (bulkUpdateTable (K := Nat) (V := Nat) id .duringClear
          ⟨fun _ => none, none⟩ [5] none none).store
        = getDataVersion (K := Nat) (V := Nat) ⟨fun _ => none, none⟩ ∧
      (bulkUpdateTable (K := Nat) (V := Nat) id .duringClear
          ⟨fun _ => none, none⟩ [5] none none).store
        = (⟨fun _ => none, none⟩ : StoreTables Nat Nat)) :=
  ⟨rfl, c1_failed_bulk_preserves_state id .duringClear
    ⟨fun _ => none, none⟩ [5] none none rfl⟩

/-- Claim C2 (confirmed): a successful `bulkUpdateTable` for a patch
(`drop` a key list `D`) on prior contents `B` yields table
`(B \ D) ∪ R` — keys in `D` deleted, then the records `R` put, with
records in `R` replacing existing records of the same key; a successful
full snapshot (`drop = '*'`) yields exactly `R`; and in both cases the
supplied version record is written in the same transaction. -/
theorem c2_bulk_table_semantics [DecidableEq K] (keyOf : V → K)
    (st : StoreTables K V) (put : List V) (D : List K)
    (version : Option DataVersion) :
    (bulkUpdateTable keyOf .noFail st put (some D) version).failed = false ∧
    (bulkUpdateTable keyOf .noFail st put (some D) version).store.version = version ∧
    (bulkUpdateTable keyOf .noFail st put (some D) version).store.table
      = specPatchTable keyOf st.table D put ∧
    (bulkUpdateTable keyOf .noFail st put none version).failed = false ∧
    (bulkUpdateTable keyOf .noFail st put none version).store.version = version ∧
    (bulkUpdateTable keyOf .noFail st put none version).store.table
      = specSnapshotTable keyOf put := by
  have hdelOk : ∀ i, FailPoint.noFail ≠ .duringDelete i := by
    intro i
    simp
  have hputOk : ∀ i, FailPoint.noFail ≠ .duringPutBatch i := by
    intro i
    simp
  have hsome : bulkUpdateTable keyOf .noFail st put (some D) version
      = ⟨⟨applyPuts keyOf
            (D.foldl (fun t id => Function.update t id none) st.table) put,
          version⟩, [], false⟩ := by
    simp [bulkUpdateTable, deleteLoop_noTrigger _ hdelOk,
      putLoop_noTrigger keyOf _ hputOk]
  have hnone : bulkUpdateTable keyOf .noFail st put none version
      = ⟨⟨applyPuts keyOf (fun _ => none) put, version⟩, [], false⟩ := by
    simp [bulkUpdateTable, putLoop_noTrigger keyOf _ hputOk]
  refine ⟨by rw [hsome], by rw [hsome], ?_, by rw [hnone], by rw [hnone], ?_⟩
  · rw [hsome]
    show applyPuts keyOf (D.foldl (fun t id => Function.update t id none) st.table) put
      = specPatchTable keyOf st.table D put
    funext k
    rw [applyPuts_apply, deleteFold_apply]
    simp only [specPatchTable]
    cases hlast : lastWithKey keyOf put k
    · rfl
    · rfl
  · rw [hnone]
    show applyPuts keyOf (fun _ => none) put = specSnapshotTable keyOf put
    funext k
    rw [applyPuts_apply]
    simp only [specSnapshotTable]
    cases hlast : lastWithKey keyOf put k
    · rfl
    · rfl

/-- Claim C10 (confirmed): `bulkUpdateTable` destructively consumes the
caller's `put` array in batches of `BATCH_SIZE` (4000) as they are
written: after a successful call the array is empty; after a failure in
put batch i, exactly the records of batches 0..i have been spliced off,
leaving `put.drop ((i+1)·4000)`; after a failure during the delete
phase (or the clear of a full update) the array is untouched; after a
failure at the version write or the commit every record has been
submitted and the array is empty. -/
theorem c10_put_array_consumed [DecidableEq K] (keyOf : V → K)
    (st : StoreTables K V) (put : List V) (drop : Option (List K))
    (version : Option DataVersion) (D : List K) (i j : Nat) :
    ((bulkUpdateTable keyOf .noFail st put drop version).putRemaining = []) ∧
    (i * BATCH_SIZE < put.length →
      (bulkUpdateTable keyOf (.duringPutBatch i) st put drop version).putRemaining
        = put.drop ((i + 1) * BATCH_SIZE)) ∧
    (j < D.length →
      (bulkUpdateTable keyOf (.duringDelete j) st put (some D) version).putRemaining
        = put) ∧
    ((bulkUpdateTable keyOf .duringClear st put none version).putRemaining = put) ∧
    ((bulkUpdateTable keyOf .duringVersionWrite st put drop version).putRemaining
      = []) ∧
    ((bulkUpdateTable keyOf .duringCommit st put drop version).putRemaining = []) := by
  refine ⟨?_, ?_, ?_, ?_, ?_, ?_⟩
  · have hdelOk : ∀ i', FailPoint.noFail ≠ .duringDelete i' := by
      intro i'
      simp
    have hputOk : ∀ i', FailPoint.noFail ≠ .duringPutBatch i' := by
      intro i'
      simp
    cases drop with
    | none =>
        simp [bulkUpdateTable, putLoop_noTrigger keyOf _ hputOk]
    | some ids =>
        simp [bulkUpdateTable, deleteLoop_noTrigger _ hdelOk,
          putLoop_noTrigger keyOf _ hputOk]
  · intro htrig
    have hdelOk : ∀ i', FailPoint.duringPutBatch i ≠ .duringDelete i' := by
      intro i'
      simp
    cases drop with
    | none =>
        have hpl := putLoop_triggered keyOf (fun _ => (none : Option V)) put 0 i htrig
        rw [Nat.zero_add] at hpl
        simp [bulkUpdateTable, hpl]
    | some ids =>
        have hpl := putLoop_triggered keyOf
          (ids.foldl (fun t id => Function.update t id none) st.table) put 0 i htrig
        rw [Nat.zero_add] at hpl
        simp [bulkUpdateTable, deleteLoop_noTrigger _ hdelOk, hpl]
  · intro hj
    have htrig := deleteLoop_triggered (V := V) st.table D 0 j hj
    rw [Nat.zero_add] at htrig
    simp [bulkUpdateTable, htrig]
  · simp [bulkUpdateTable]
  · have hdelOk : ∀ i', FailPoint.duringVersionWrite ≠ .duringDelete i' := by
      intro i'
      simp
    have hputOk : ∀ i', FailPoint.duringVersionWrite ≠ .duringPutBatch i' := by
      intro i'
      simp
    cases drop with
    | none =>
        simp [bulkUpdateTable, putLoop_noTrigger keyOf _ hputOk]
    | some ids =>
        simp [bulkUpdateTable, deleteLoop_noTrigger _ hdelOk,
          putLoop_noTrigger keyOf _ hputOk]
  · have hdelOk : ∀ i', FailPoint.duringCommit ≠ .duringDelete i' := by
      intro i'
      simp
    have hputOk : ∀ i', FailPoint.duringCommit ≠ .duringPutBatch i' := by
      intro i'
      simp
    cases drop with
    | none =>
        simp [bulkUpdateTable, putLoop_noTrigger keyOf _ hputOk]
    | some ids =>
        simp [bulkUpdateTable, deleteLoop_noTrigger _ hdelOk,
          putLoop_noTrigger keyOf _ hputOk]

/-- Witness for C10: concrete inputs discharging the hypotheses of the
batch-failure and delete-failure conjuncts (a one-batch put array and a
one-element drop list). -/
theorem c10_put_array_consumed_witness :
    ((0 : Nat) * BATCH_SIZE < [(1 : Nat), 2, 3].length ∧
      (bulkUpdateTable (K := Nat) (V := Nat) id (.duringPutBatch 0)
          ⟨fun _ => none, none⟩ [1, 2, 3] (some [9]) none).putRemaining
        = [(1 : Nat), 2, 3].drop ((0 + 1) * BATCH_SIZE)) ∧
    ((0 : Nat) < [(9 : Nat)].length ∧
      (bulkUpdateTable (K := Nat) (V := Nat) id (.duringDelete 0)
          ⟨fun _ => none, none⟩ [1, 2, 3] (some [9]) none).putRemaining
        = [1, 2, 3]) :=
  ⟨⟨by decide,
      (c10_put_array_consumed (K := Nat) (V := Nat) id ⟨fun _ => none, none⟩
        [1, 2, 3] (some [9]) none [9] 0 0).2.1 (by decide)⟩,
    ⟨by decide,
      (c10_put_array_consumed (K := Nat) (V := Nat) id ⟨fun _ => none, none⟩
        [1, 2, 3] (some [9]) none [9] 0 0).2.2.1 (by decide)⟩⟩

theorem compareVersions_pos_iff (a b : Version) :
    compareVersions a b > 0 ↔
      (b.major < a.major ∨ (a.major = b.major ∧ b.minor < a.minor) ∨
        (a.major = b.major ∧ a.minor = b.minor ∧ b.patch < a.patch)) := by
  unfold compareVersions
  split_ifs <;> omega

theorem compareVersions_neg_iff (a b : Version) :
    compareVersions a b < 0 ↔
      (a.major < b.major ∨ (a.major = b.major ∧ a.minor < b.minor) ∨
        (a.major = b.major ∧ a.minor = b.minor ∧ a.patch < b.patch)) := by
  unfold compareVersions
  split_ifs <;> omega

/-- Counterexample to claim C3: with upstream manifest version
(major 1, minor 0, patch 2, snapshot 0) and currentVersion (1, 1, 0),
the current minor (1) differs from upstream's (0), so the claim says the
full snapshot is fetched first; but the code fails with
`DatabaseTooOld` before fetching anything, because the current version
compares newer than upstream. -/
theorem c3_counterexample :
    (⟨1, 1, 0⟩ : Version).minor ≠ (⟨1, 0, 2, 0⟩ : VersionInfo).minor ∧
    downloadPlan ⟨1, 0, 2, 0⟩ (some ⟨1, 1, 0⟩) = .error .databaseTooOld := by
  constructor
  · decide
  · rfl

/-- Claim C3 (corrected): provided the supplied currentVersion is not
newer than the upstream manifest version (otherwise the download fails
with `DatabaseTooOld` and no file is fetched): if no currentVersion is
supplied, or the current (major, minor) pair differs from upstream's
(equivalently, precedes it), the downloader first fetches the full
snapshot file at patch number `snapshot` and then the consecutive patch
files snapshot+1 … patch in increasing order; if the currentVersion has
the same major and minor as upstream, only patch files
currentVersion.patch+1 … patch are fetched, with no snapshot. -/
theorem c3_download_plan (info : VersionInfo) :
    (downloadPlan info none
      = .ok ((FileType.full, ⟨info.major, info.minor, info.snapshot⟩) ::
          patchFiles info info.snapshot)) ∧
    (∀ cur : Version,
      compareVersions cur ⟨info.major, info.minor, info.patch⟩ ≤ 0 →
      ((cur.major, cur.minor) ≠ (info.major, info.minor) →
        downloadPlan info (some cur)
          = .ok ((FileType.full, ⟨info.major, info.minor, info.snapshot⟩) ::
              patchFiles info info.snapshot)) ∧
      ((cur.major, cur.minor) = (info.major, info.minor) →
        downloadPlan info (some cur) = .ok (patchFiles info cur.patch))) ∧
    (∀ cur : Version,
      compareVersions cur ⟨info.major, info.minor, info.patch⟩ > 0 →
      downloadPlan info (some cur) = .error .databaseTooOld) := by
  refine ⟨rfl, ?_, ?_⟩
  · intro cur hle
    have hnotPos : ¬ compareVersions cur ⟨info.major, info.minor, info.patch⟩ > 0 := by
      omega
    have hiffPos := compareVersions_pos_iff cur ⟨info.major, info.minor, info.patch⟩
    dsimp only at hiffPos
    have hnp : ¬ (info.major < cur.major ∨
        (cur.major = info.major ∧ info.minor < cur.minor) ∨
        (cur.major = info.major ∧ cur.minor = info.minor ∧
          info.patch < cur.patch)) :=
      fun hp => hnotPos (hiffPos.mpr hp)
    constructor
    · intro hne
      have hne' : cur.major ≠ info.major ∨ cur.minor ≠ info.minor := by
        by_contra hcon
        push_neg at hcon
        exact hne (by rw [hcon.1, hcon.2])
      have hneg : compareVersions cur ⟨info.major, info.minor, 0⟩ < 0 := by
        have hiffNeg := compareVersions_neg_iff cur ⟨info.major, info.minor, 0⟩
        dsimp only at hiffNeg
        rw [hiffNeg]
        omega
      simp only [downloadPlan]
      rw [if_neg hnotPos, if_pos hneg]
    · intro heq
      have hmaj : cur.major = info.major := congrArg Prod.fst heq
      have hmin : cur.minor = info.minor := congrArg Prod.snd heq
      have hneg : ¬ compareVersions cur ⟨info.major, info.minor, 0⟩ < 0 := by
        have hiffNeg := compareVersions_neg_iff cur ⟨info.major, info.minor, 0⟩
        dsimp only at hiffNeg
        rw [hiffNeg]
        omega
      simp only [downloadPlan]
      rw [if_neg hnotPos, if_neg hneg]
  · intro cur hgt
    simp only [downloadPlan]
    rw [if_pos hgt]

/-- Witness for C3 (amended): with upstream (1, 0, 2, snapshot 0) and a
current version (1, 0, 0) with the same major and minor, only the patch
files 1 and 2 are fetched. -/
theorem c3_download_plan_witness :
    compareVersions ⟨1, 0, 0⟩ ⟨1, 0, 2⟩ ≤ 0 ∧
    ((⟨1, 0, 0⟩ : Version).major, (⟨1, 0, 0⟩ : Version).minor)
      = ((⟨1, 0, 2, 0⟩ : VersionInfo).major, (⟨1, 0, 2, 0⟩ : VersionInfo).minor) ∧
    downloadPlan ⟨1, 0, 2, 0⟩ (some ⟨1, 0, 0⟩)
      = .ok (patchFiles ⟨1, 0, 2, 0⟩ 0) :=
  ⟨by decide, by decide,
    ((c3_download_plan ⟨1, 0, 2, 0⟩).2.1 ⟨1, 0, 0⟩ (by decide)).2 (by decide)⟩

theorem foldl_setAdd_of_nodup (l : List ObjRef) :
    ∀ acc : List ObjRef, l.Nodup → (∀ x ∈ l, x ∉ acc) →
      l.foldl setAdd acc = acc ++ l := by
  induction l with
  | nil =>
      intro acc _ _
      simp
  | cons x l ih =>
      intro acc hnd hdisj
      rw [List.foldl_cons]
      have hx : x ∉ acc := hdisj x (by simp)
      rw [setAdd, if_neg hx]
      rw [ih (acc ++ [x]) (List.Nodup.of_cons hnd) ?_]
      · simp
      · intro y hy
        simp only [List.mem_append, List.mem_singleton]
        rintro (hacc | rfl)
        · exact hdisj y (by simp [hy]) hacc
        · exact (List.nodup_cons.mp hnd).1 hy

theorem tagScan_map_fst (scanId : Nat) (recs : List NameRecord) :
    (tagScan scanId recs).map Prod.fst
      = (List.range recs.length).map (fun i => (scanId, i)) := by
  unfold tagScan
  rw [List.map_map]
  have hcomp : (Prod.fst ∘ fun p : Nat × NameRecord => ((scanId, p.1), p.2))
      = (fun i => (scanId, i)) ∘ Prod.fst := by
    funext p
    rfl
  rw [hcomp, ← List.map_map, List.enum_map_fst]

theorem tagScan_nodup (scanId : Nat) (recs : List NameRecord) :
    (tagScan scanId recs).Nodup := by
  apply List.Nodup.of_map Prod.fst
  rw [tagScan_map_fst]
  apply List.Nodup.map
  · intro a b hab
    exact (Prod.mk.injEq _ _ _ _ ▸ hab).2
  · exact List.nodup_range _

theorem tagScan_fst_fst (scanId : Nat) (recs : List NameRecord) (x : ObjRef)
    (hx : x ∈ tagScan scanId recs) : x.1.1 = scanId := by
  unfold tagScan at hx
  rcases List.mem_map.mp hx with ⟨p, _, rfl⟩
  rfl

/-- Counterexample to claim C6: a record whose kanji-spelling array and
reading array both contain the query appears twice in the result of
`getNames` — the two index cursors deserialize distinct objects, so the
`Set` union does not remove the duplicate — contradicting the claim
that the union has no duplicates. -/
theorem c6_counterexample :
    getNames "あさ" [⟨1657560, some ["あさ"], ["あさ"], []⟩]
      = [⟨1657560, some ["あさ"], ["あさ"], []⟩,
         ⟨1657560, some ["あさ"], ["あさ"], []⟩] ∧
    ¬ (getNames "あさ" [⟨1657560, some ["あさ"], ["あさ"], []⟩]).Nodup := by
  constructor
  · rfl
  · decide

/-- Claim C6 (corrected): `getNames(query)` returns the records whose
kanji-spelling (`k`) index matches the query exactly, in primary-key
order, followed by ALL the records whose reading (`r`) index matches it
exactly, in primary-key order: a record matching both indexes appears
twice (the JavaScript `Set` holds freshly deserialized cursor values,
which are never reference-equal across the two scans, so nothing is
deduplicated), and the hiragana-normalized (`h`) index is not consulted
at all. -/
theorem c6_getNames_concat (search : String) (table : List NameRecord) :
    getNames search table
      = scanNamesIndex (fun rec => rec.k.getD []) search table
        ++ scanNamesIndex (fun rec => rec.r) search table := by
  unfold getNames
  dsimp only
  have hnd : (tagScan 0 (scanNamesIndex (fun rec => rec.k.getD []) search table)
      ++ tagScan 1 (scanNamesIndex (fun rec => rec.r) search table)).Nodup := by
    apply List.Nodup.append (tagScan_nodup _ _) (tagScan_nodup _ _)
    intro x hx0 hx1
    have h0 := tagScan_fst_fst _ _ _ hx0
    have h1 := tagScan_fst_fst _ _ _ hx1
    rw [h0] at h1
    exact absurd h1 (by decide)
  rw [foldl_setAdd_of_nodup _ [] hnd (by simp)]
  rw [List.nil_append, List.map_append]
  unfold tagScan
  rw [List.map_map, List.map_map]
  have hsnd : ∀ recs : List NameRecord,
      recs.enum.map ((fun x : ObjRef => x.2) ∘ fun p => ((0, p.1), p.2)) = recs := by
    intro recs
    have : ((fun x : ObjRef => x.2) ∘ fun p : Nat × NameRecord => ((0, p.1), p.2))
        = Prod.snd := by
      funext p
      rfl
    rw [this, List.enum_map_snd]
  have hsnd₁ : ∀ recs : List NameRecord,
      recs.enum.map ((fun x : ObjRef => x.2) ∘ fun p => ((1, p.1), p.2)) = recs := by
    intro recs
    have : ((fun x : ObjRef => x.2) ∘ fun p : Nat × NameRecord => ((1, p.1), p.2))
        = Prod.snd := by
      funext p
      rfl
    rw [this, List.enum_map_snd]
  rw [hsnd, hsnd₁]

theorem progressStep_headerRead (res : ℚ) (s : GetEventsState) :
    (progressStep res s).1.headerRead = s.headerRead := by
  unfold progressStep
  split <;> rfl

theorem progressStep_recordsRead (res : ℚ) (s : GetEventsState) :
    (progressStep res s).1.recordsRead = s.recordsRead := by
  unfold progressStep
  split <;> rfl

theorem compareVersions_self (v : Version) : compareVersions v v = 0 := by
  unfold compareVersions
  simp

theorem mem_if_singleton {α : Type} {c : Prop} [Decidable c] {x y : α}
    (h : y ∈ if c then [x] else ([] : List α)) : y = x := by
  split at h
  · simpa using h
  · simp at h

theorem getEventsLoop_full_no_deletion (v : Version) (res : ℚ)
    (lines : List (LjsonLine E D)) :
    ∀ s : GetEventsState, ∀ ev ∈ (getEventsLoop .full v res s lines).1,
      isDeletionEvent ev = false := by
  induction lines with
  | nil =>
      intro s ev hev
      simp [getEventsLoop] at hev
  | cons line rest ih =>
      intro s ev hev
      cases line with
      | header hv records =>
          rw [getEventsLoop] at hev
          split at hev
          · simp at hev
          · split at hev
            · simp at hev
            · simp only [List.mem_cons, List.mem_append] at hev
              rcases hev with rfl | hev | hev
              · rfl
              · rw [mem_if_singleton hev]
                rfl
              · exact ih _ _ hev
      | entry e =>
          rw [getEventsLoop] at hev
          split at hev
          · simp at hev
          · simp only [List.mem_cons, List.mem_append] at hev
            rcases hev with rfl | hev | hev
            · rfl
            · rw [mem_if_singleton hev]
              rfl
            · exact ih _ _ hev
      | deletion d =>
          rw [getEventsLoop] at hev
          split at hev
          · simp at hev
          · rw [if_pos rfl] at hev
            simp at hev
      | invalid =>
          rw [getEventsLoop] at hev
          split at hev
          · simp at hev
          · simp at hev

theorem getEventsLoop_entryOrProgress (v : Version) (res : ℚ)
    (lines : List (LjsonLine E D)) :
    ∀ s : GetEventsState, s.headerRead = true →
      ∀ ev ∈ (getEventsLoop .full v res s lines).1,
        isEntryOrProgressEvent ev = true := by
  induction lines with
  | nil =>
      intro s _ ev hev
      simp [getEventsLoop] at hev
  | cons line rest ih =>
      intro s hs ev hev
      cases line with
      | header hv records =>
          rw [getEventsLoop] at hev
          rw [if_pos hs] at hev
          simp at hev
      | entry e =>
          rw [getEventsLoop] at hev
          rw [if_neg (by simp [hs])] at hev
          have hsr : (progressStep res
              { s with recordsRead := s.recordsRead + 1 }).1.headerRead = true := by
            rw [progressStep_headerRead]
            exact hs
          simp only [List.mem_cons, List.mem_append] at hev
          rcases hev with rfl | hev | hev
          · rfl
          · rw [mem_if_singleton hev]
            rfl
          · exact ih _ hsr _ hev
      | deletion d =>
          rw [getEventsLoop] at hev
          rw [if_neg (by simp [hs]), if_pos rfl] at hev
          simp at hev
      | invalid =>
          rw [getEventsLoop] at hev
          rw [if_neg (by simp [hs])] at hev
          simp at hev

theorem getEventsLoop_full_deletion_error (v : Version) (res : ℚ)
    (pre : List E) (d : D) (rest : List (LjsonLine E D)) :
    ∀ s : GetEventsState, s.headerRead = true →
      (getEventsLoop .full v res s
          (pre.map .entry ++ .deletion d :: rest)).2
        = some .databaseFileDeletionInSnapshot := by
  induction pre with
  | nil =>
      intro s hs
      rw [List.map_nil, List.nil_append, getEventsLoop]
      rw [if_neg (by simp [hs]), if_pos rfl]
  | cons e pre ih =>
      intro s hs
      rw [List.map_cons, List.cons_append, getEventsLoop]
      rw [if_neg (by simp [hs])]
      have hsr : (progressStep res
          { s with recordsRead := s.recordsRead + 1 }).1.headerRead = true := by
        rw [progressStep_headerRead]
        exact hs
      exact ih _ hsr

theorem updateLoop_entryOrProgress_errored [DecidableEq K] (keyOf : V → K)
    (toRecord : E → V) (getId : D → K) (lang : String) (fp : FailPoint)
    (st : StoreTables K V) (code : DownloadErrorCode)
    (evs : List (DownloadEventM E D)) :
    ∀ (p : List V) (dl : List K) (v : Version) (pf : Bool),
      evs.all isEntryOrProgressEvent = true →
      updateLoop keyOf toRecord getId lang fp st p dl (some (v, pf)) evs
          (.errored code)
        = (some (.download code), st) := by
  induction evs with
  | nil =>
      intro p dl v pf _
      rfl
  | cons ev rest ih =>
      intro p dl v pf hall
      rw [List.all_cons, Bool.and_eq_true] at hall
      cases ev with
      | version v₁ pf₁ => simp [isEntryOrProgressEvent] at hall
      | versionend => simp [isEntryOrProgressEvent] at hall
      | deletion d => simp [isEntryOrProgressEvent] at hall
      | entry e =>
          rw [updateLoop]
          exact ih _ _ _ _ hall.2
      | progress loaded total =>
          rw [updateLoop]
          exact ih _ _ _ _ hall.2

/-- Claim C5 (confirmed): deletion events are only ever observed by the
applier with `partial = true`: a full (snapshot) file never yields a
deletion event at all; a deletion record inside a full file makes the
downloader raise the typed deletion-in-snapshot protocol error, which
terminates the event sequence, and the applier — whose bulk update only
runs at a `versionend` that the failed file never reaches — re-throws
the error with the store left exactly as it was. -/
theorem c5_deletion_in_snapshot [DecidableEq K] (keyOf : V → K) (toRecord : E → V)
    (getId : D → K) (lang : String) (fp : FailPoint) (st : StoreTables K V)
    (v : Version) (records : Nat) (res : ℚ) (pre : List E) (d : D)
    (rest : List (LjsonLine E D)) :
    ((getEvents .full v res
        (LjsonLine.header v records :: (pre.map .entry ++ .deletion d :: rest))).2
      = some .databaseFileDeletionInSnapshot) ∧
    (∀ (lines : List (LjsonLine E D)) (v₁ : Version) (res₁ : ℚ),
      (getEvents .full v₁ res₁ lines).1.all (fun ev => !(isDeletionEvent ev)) = true) ∧
    (updateLoop keyOf toRecord getId lang fp st [] [] none
        (getEvents .full v res
          (LjsonLine.header v records :: (pre.map .entry ++ .deletion d :: rest))).1
        (.errored .databaseFileDeletionInSnapshot)
      = (some (.download .databaseFileDeletionInSnapshot), st)) := by
  have hval : compareVersions v v ≠ 0 ↔ False := by
    simp [compareVersions_self]
  have hhead : getEvents .full v res
      (LjsonLine.header v records :: (pre.map .entry ++ .deletion d :: rest))
      = (let s₁ : GetEventsState := ⟨true, 0, 0, records⟩
         let stepped := progressStep res s₁
         let tail := getEventsLoop .full v res stepped.1
           (pre.map .entry ++ .deletion d :: rest)
         (DownloadEventM.version v false ::
            ((if stepped.2 then
                [DownloadEventM.progress stepped.1.recordsRead stepped.1.totalRecords]
              else []) ++ tail.1),
          tail.2)) := by
    unfold getEvents
    rw [getEventsLoop]
    rw [if_neg (by simp), if_neg (by simp [compareVersions_self])]
    rfl
  rw [hhead]
  dsimp only
  have hsr : (progressStep res (⟨true, 0, 0, records⟩ : GetEventsState)).1.headerRead
      = true := by
    rw [progressStep_headerRead]
  refine ⟨?_, ?_, ?_⟩
  · exact getEventsLoop_full_deletion_error v res pre d rest _ hsr
  · intro lines v₁ res₁
    rw [List.all_eq_true]
    intro ev hev
    rw [getEventsLoop_full_no_deletion v₁ res₁ lines _ ev hev]
    rfl
  · rw [updateLoop]
    simp only [Option.isSome_none, Bool.false_eq_true, if_false]
    apply updateLoop_entryOrProgress_errored
    rw [List.all_eq_true]
    intro ev hev
    rw [List.mem_append] at hev
    rcases hev with hev | hev
    · rw [mem_if_singleton hev]
      rfl
    · exact getEventsLoop_entryOrProgress v res _ _ hsr ev hev

theorem progressTrace_inv (res : ℚ) (hres : 0 ≤ res) (N : Nat) (hN : 0 < N) :
    ∀ (n m r : Nat), (⌊(N : ℚ) * res⌋₊ + 1) ∣ r → r ≤ m →
      m < r + (⌊(N : ℚ) * res⌋₊ + 1) →
      progressTrace res ⟨true, (r : ℚ) / (N : ℚ), m, N⟩ n
        = (List.range' (m + 1) n).filter
            (fun x => (⌊(N : ℚ) * res⌋₊ + 1) ∣ x) := by
  intro n m r
  induction n generalizing m r with
  | zero =>
      intro _ _ _
      rfl
  | succ n ih =>
      intro hdvd hle hlt
      have hNQ : (0 : ℚ) < (N : ℚ) := by exact_mod_cast hN
      have hrm : r ≤ m + 1 := by omega
      have hfloorNN : (0 : ℚ) ≤ res * (N : ℚ) := by positivity
      have hkey : (((m + 1 : Nat) : ℚ) / (N : ℚ) - (r : ℚ) / (N : ℚ) > res)
          ↔ ((⌊(N : ℚ) * res⌋₊ + 1) ∣ (m + 1)) := by
        rw [div_sub_div_same, gt_iff_lt, lt_div_iff hNQ, ← Nat.cast_sub hrm,
          ← Nat.floor_lt hfloorNN, mul_comm res ((N : ℚ))]
        constructor
        · intro hlt2
          have heq : m + 1 = r + (⌊(N : ℚ) * res⌋₊ + 1) := by omega
          rw [heq]
          exact Dvd.dvd.add hdvd (dvd_refl _)
        · intro hdvd2
          rcases hdvd with ⟨a, ha⟩
          rcases hdvd2 with ⟨b, hb⟩
          have hab : a < b := by
            apply Nat.lt_of_mul_lt_mul_left (a := ⌊(N : ℚ) * res⌋₊ + 1)
            omega
          have hba : b ≤ a + 1 := by
            apply Nat.le_of_mul_le_mul_left ?_ (by omega : 0 < ⌊(N : ℚ) * res⌋₊ + 1)
            have hexp : (⌊(N : ℚ) * res⌋₊ + 1) * (a + 1)
                = (⌊(N : ℚ) * res⌋₊ + 1) * a + (⌊(N : ℚ) * res⌋₊ + 1) := by ring
            omega
          have hbeq : b = a + 1 := by omega
          subst hbeq
          have hexp : (⌊(N : ℚ) * res⌋₊ + 1) * (a + 1)
              = (⌊(N : ℚ) * res⌋₊ + 1) * a + (⌊(N : ℚ) * res⌋₊ + 1) := by ring
          omega
      rw [progressTrace]
      dsimp only
      by_cases hd : (⌊(N : ℚ) * res⌋₊ + 1) ∣ (m + 1)
      · have hfire : progressStep res ⟨true, (r : ℚ) / (N : ℚ), m + 1, N⟩
            = (⟨true, ((m + 1 : Nat) : ℚ) / (N : ℚ), m + 1, N⟩, true) := by
          unfold progressStep
          dsimp only
          rw [if_pos ⟨by omega, hkey.mpr hd⟩]
        rw [hfire]
        dsimp only
        rw [ih (m + 1) (m + 1) hd (le_refl _) (by omega)]
        rw [List.range'_succ, List.filter_cons]
        simp [hd]
      · have hfire : progressStep res ⟨true, (r : ℚ) / (N : ℚ), m + 1, N⟩
            = (⟨true, (r : ℚ) / (N : ℚ), m + 1, N⟩, false) := by
          unfold progressStep
          dsimp only
          rw [if_neg (fun hc => hd (hkey.mp hc.2))]
        rw [hfire]
        dsimp only
        have hlt₁ : m + 1 < r + (⌊(N : ℚ) * res⌋₊ + 1) := by
          have hne : m + 1 ≠ r + (⌊(N : ℚ) * res⌋₊ + 1) := by
            intro heq
            apply hd
            rw [heq]
            exact Dvd.dvd.add hdvd (dvd_refl _)
          omega
        rw [ih (m + 1) r hdvd (by omega) hlt₁]
        rw [List.range'_succ, List.filter_cons]
        simp [hd]

theorem getEventsLoop_progress_values (ft : FileType) (v : Version) (res : ℚ)
    (es : List E) :
    ∀ s : GetEventsState, s.headerRead = true →
      progressLoadedValues
          (getEventsLoop (E := E) (D := D) ft v res s (es.map .entry)).1
        = progressTrace res s es.length := by
  induction es with
  | nil =>
      intro s _
      rfl
  | cons e es ih =>
      intro s hs
      rw [List.map_cons, getEventsLoop]
      rw [if_neg (by simp [hs])]
      rw [List.length_cons, progressTrace]
      dsimp only
      unfold progressLoadedValues
      rw [List.filterMap_cons, List.filterMap_append]
      dsimp only
      have hsr : (progressStep res
          { s with recordsRead := s.recordsRead + 1 }).1.headerRead = true := by
        rw [progressStep_headerRead]
        exact hs
      have htail := ih _ hsr
      unfold progressLoadedValues at htail
      rw [htail]
      congr 1
      split_ifs with hf
      · rw [List.filterMap_cons]
        dsimp only
        rw [List.filterMap_nil, progressStep_recordsRead]
      · rw [List.filterMap_nil]

/-- Counterexample to claim C7: streaming a file whose header declares
20 records with the default `maxProgressResolution = 0.05`, reading one
record advances the ratio by exactly 0.05 — yet no progress event is
emitted, because the code requires the ratio to have advanced *strictly
more than* `maxProgressResolution` (`>` rather than `≥`). -/
theorem c7_counterexample :
    progressLoadedValues
        (getEvents (E := Unit) (D := Unit) .full ⟨1, 0, 0⟩ (1 / 20)
          [.header ⟨1, 0, 0⟩ 20, .entry ()]).1 = [] ∧
    (1 : ℚ) / 20 - 0 = 1 / 20 := by
  constructor
  · unfold getEvents
    rw [getEventsLoop]
    rw [if_neg (by simp), if_neg (by simp [compareVersions_self])]
    dsimp only
    have hstep : progressStep (1 / 20) (⟨true, 0, 0, 20⟩ : GetEventsState)
        = (⟨true, 0, 0, 20⟩, false) := by
      unfold progressStep
      dsimp only
      rw [if_neg]
      rintro ⟨-, hgt⟩
      rw [Nat.cast_zero, zero_div, sub_zero] at hgt
      exact absurd hgt (by norm_num)
    rw [hstep]
    dsimp only
    have hif : (if (false : Bool) = true
        then [DownloadEventM.progress (E := Unit) (D := Unit) 0 20]
        else []) = [] := by simp
    rw [hif, List.nil_append]
    unfold progressLoadedValues
    rw [List.filterMap_cons]
    dsimp only
    have hb := getEventsLoop_progress_values (E := Unit) (D := Unit) .full
      ⟨1, 0, 0⟩ (1 / 20) [()] (⟨true, 0, 0, 20⟩ : GetEventsState) rfl
    have hinv := progressTrace_inv (1 / 20) (by norm_num) 20 (by norm_num)
      1 0 0 (dvd_zero _) (le_refl _) (by omega)
    rw [show ((0 : Nat) : ℚ) / ((20 : Nat) : ℚ) = 0 by norm_num] at hinv
    have hfl : ⌊((20 : Nat) : ℚ) * (1 / 20)⌋₊ = 1 := by
      rw [show ((20 : Nat) : ℚ) * (1 / 20) = 1 by norm_num]
      exact Nat.floor_one
    rw [hfl] at hinv
    have hnil : (List.range' 1 1).filter (fun x => decide ((1 + 1) ∣ x)) = [] := by
      decide
    exact hb.trans (hinv.trans hnil)
  · norm_num

/-- Claim C7 (corrected): while streaming a data file whose header
declares `N` records, a progress event is emitted exactly when
`recordsRead / N` has advanced *strictly more than*
`maxProgressResolution` since the last progress event (an advance
exactly equal to the resolution does not fire); equivalently, progress
events fire precisely at the records whose ordinal is a positive
multiple of `⌊N·maxProgressResolution⌋ + 1`. -/
theorem c7_progress_strict_threshold (res : ℚ) (N : Nat) (v : Version)
    (ft : FileType) (es : List E) (hres : 0 ≤ res) (hN : 0 < N) :
    progressLoadedValues
        (getEvents (E := E) (D := D) ft v res
          (LjsonLine.header v N :: es.map .entry)).1
      = fileProgressPoints res N es.length ∧
    fileProgressPoints res N es.length
      = (List.range' 1 es.length).filter
          (fun m => (⌊(N : ℚ) * res⌋₊ + 1) ∣ m) := by
  constructor
  · unfold getEvents
    rw [getEventsLoop]
    rw [if_neg (by simp), if_neg (by simp [compareVersions_self])]
    dsimp only
    have hstep : progressStep res (⟨true, 0, 0, N⟩ : GetEventsState)
        = (⟨true, 0, 0, N⟩, false) := by
      unfold progressStep
      dsimp only
      rw [if_neg]
      rintro ⟨-, hgt⟩
      rw [Nat.cast_zero, zero_div, sub_zero] at hgt
      exact absurd hgt (not_lt.mpr hres)
    rw [hstep]
    dsimp only
    have hif : (if (false : Bool) = true
        then [DownloadEventM.progress (E := E) (D := D) 0 N]
        else []) = [] := by simp
    rw [hif, List.nil_append]
    unfold progressLoadedValues
    rw [List.filterMap_cons]
    dsimp only
    exact getEventsLoop_progress_values ft v res es _ rfl
  · have h0 := progressTrace_inv res hres N hN es.length 0 0 (dvd_zero _)
      (le_refl _) (by omega)
    rw [show ((0 : Nat) : ℚ) / (N : ℚ) = 0 by simp] at h0
    exact h0

/-- Witness for C7 (amended): with 20 declared records, resolution
1/20 and two records read, a single progress event fires at the second
record (the multiples of ⌊20·(1/20)⌋+1 = 2). -/
theorem c7_progress_strict_threshold_witness :
    ((0 : ℚ) ≤ 1 / 20 ∧ (0 : Nat) < 20) ∧
    (progressLoadedValues
        (getEvents (E := Unit) (D := Unit) .full ⟨1, 0, 0⟩ (1 / 20)
          (LjsonLine.header ⟨1, 0, 0⟩ 20 :: ([(), ()] : List Unit).map .entry)).1
      = fileProgressPoints (1 / 20) 20 ([(), ()] : List Unit).length ∧
    fileProgressPoints (1 / 20) 20 ([(), ()] : List Unit).length
      = (List.range' 1 ([(), ()] : List Unit).length).filter
          (fun m => (⌊(20 : ℚ) * (1 / 20)⌋₊ + 1) ∣ m)) :=
  ⟨⟨by norm_num, by norm_num⟩,
    c7_progress_strict_threshold (1 / 20) 20 ⟨1, 0, 0⟩ .full [(), ()]
      (by norm_num) (by norm_num)⟩

end Hikibiki
